import Mathlib

/-!
Verification development for the `felly` C++ library.

This file gives a shallow embedding of the parts of the library that the
specification talks about:

* `felly::basic_unique_any` over `unique_any_optional_storage_traits`
  (`src/include/felly/unique_any.hpp`): an exclusive-ownership wrapper whose
  storage is `std::optional<T>` (modelled as `Option V`), with a validity
  predicate `pred : V → Bool` and a deleter.  Deleter invocations and value
  installations are recorded as an explicit event trace, in the C++
  execution order of the member functions.
* `felly::basic_unique_ptr` over pointer traits together with the
  `std::inout_ptr_t` specialization (`src/include/felly/unique_ptr.hpp`).
* `felly::numeric_cast` (`src/include/felly/numeric_cast.hpp`), with the
  integral-target overloads embedded over `Int`/`Rat`.
* `felly::detail::basic_scope_exit` (`src/include/felly/scope_exit.hpp`).
-/

namespace Felly

/-- Observable side effects of the wrapper's operations: a deleter invocation
on a value, or the installation of a value into storage
(`TTraits::construct`). -/
inductive UAEvent (V : Type) where
  | deleted (v : V)
  | installed (v : V)
  deriving DecidableEq, Repr

/-- The invalid-access failure thrown by `require_value()`
(`std::logic_error("Can't access a moved or invalid value")`). -/
inductive UAError where
  | invalidAccess
  deriving DecidableEq, Repr

/-- Models `unique_any_optional_storage_traits::has_value(const value_type&)`:
with a predicate configured it is `std::invoke(TPredicate, v)`, otherwise
`true`.  We model the configured predicate as `pred`; the predicate-free
instantiation is `pred = fun _ => true`. -/
def hasValueV {V : Type} (pred : V → Bool) (v : V) : Bool := pred v

/-- Models `unique_any_optional_storage_traits::has_value(const storage_type&)`:
`s.has_value() && has_value(s.value())`. -/
def hasValueS {V : Type} (pred : V → Bool) : Option V → Bool
  | none => false
  | some v => pred v

/-- Models `unique_any_optional_storage_traits::construct`: `s.emplace(args...)`,
overwriting the slot.  Installation is recorded as an event. -/
def constructS {V : Type} (u : V) : Option V × List (UAEvent V) :=
  (some u, [.installed u])

/-- Models `unique_any_optional_storage_traits::destroy`: move the contained value
out, reset the optional, then invoke the deleter on the moved-out value.
The C++ code reads `std::move(s).value()` and so requires an engaged
optional; every call site in `basic_unique_any` only reaches `destroy` with
engaged storage, so the `none` branch is unreachable there. -/
def destroyS {V : Type} : Option V → Option V × List (UAEvent V)
  | some v => (none, [.deleted v])
  | none => (none, [])

/-- Models `basic_unique_any(U&& value)`: construct from a raw value; the value is
stored only if `TTraits::has_value(value)` holds. -/
def uaFromValue {V : Type} (pred : V → Bool) (u : V) :
    Option V × List (UAEvent V) :=
  if hasValueV pred u then constructS u else (none, [])

/-- Models `basic_unique_any(std::in_place_t, args...)`: `TTraits::construct` the
value (here `v` stands for the just-built value), then, if `has_value()`
fails, `TTraits::destroy` the storage. -/
def uaInPlace {V : Type} (pred : V → Bool) (v : V) :
    Option V × List (UAEvent V) :=
  let c := constructS v
  if hasValueS pred c.1 then c else
    let d := destroyS c.1
    (d.1, c.2 ++ d.2)

/-- Models `basic_unique_any::reset()`: if `has_value()`, `TTraits::destroy` the
storage. -/
def uaReset {V : Type} (pred : V → Bool) (s : Option V) :
    Option V × List (UAEvent V) :=
  if hasValueS pred s then destroyS s else (s, [])

/-- Models `basic_unique_any::reset(U&& u)`: if `has_value()`, destroy the old
storage; then, if `TTraits::has_value(u)`, construct `u` into storage. -/
def uaResetWith {V : Type} (pred : V → Bool) (s : Option V) (u : V) :
    Option V × List (UAEvent V) :=
  let r := if hasValueS pred s then destroyS s else (s, [])
  if hasValueV pred u then
    let c := constructS u
    (c.1, r.2 ++ c.2)
  else r

/-- Models `basic_unique_any::disown()`: `require_value()` (throwing when
`has_value()` is false), then move the value out and set the storage back to
`TTraits::default_value()`.  No deleter runs, so the event trace is empty. -/
def uaDisown {V : Type} (pred : V → Bool) (s : Option V) :
    Except UAError (V × Option V × List (UAEvent V)) :=
  match s with
  | some v => if pred v then .ok (v, none, []) else .error .invalidAccess
  | none => .error .invalidAccess

/-- Models `basic_unique_any(basic_unique_any&& other)`: the new storage starts at
`TTraits::default_value()`; if `other.has_value()`, the storages are
swapped.  Returns (destination storage, source storage afterwards); no
events are produced. -/
def uaMoveCtor {V : Type} (pred : V → Bool) (s : Option V) :
    Option V × Option V :=
  if hasValueS pred s then (s, none) else (none, s)

/-- Pointwise update of an object heap, used to model distinct
`basic_unique_any` objects referred to by address. -/
def hupd {V : Type} (h : Nat → Option V) (i : Nat) (s : Option V) :
    Nat → Option V :=
  fun j => if j = i then s else h j

/-- Models `basic_unique_any::operator=(basic_unique_any&& other)`: if
`this == std::addressof(other)`, return immediately; otherwise `reset()`,
then, if `other.has_value()`, `TTraits::construct(storage, other.disown())`.
Objects live in a heap indexed by address; `dst` is `this` and `src` is
`other`. -/
def uaMoveAssign {V : Type} (pred : V → Bool) (h : Nat → Option V)
    (dst src : Nat) : (Nat → Option V) × List (UAEvent V) :=
  if dst = src then (h, [])
  else
    let r := uaReset pred (h dst)
    let h1 := hupd h dst r.1
    match h1 src with
    | some v =>
      if pred v then
        let h2 := hupd h1 src none
        let c := constructS v
        (hupd h2 dst c.1, r.2 ++ c.2)
      else (h1, r.2)
    | none => (h1, r.2)

/-- Models `basic_unique_any::operator==(const basic_unique_any&) = default`:
memberwise comparison of the sole member `storage`, i.e. `std::optional`
equality. -/
def uaEq {V : Type} [DecidableEq V] (a b : Option V) : Bool :=
  decide (a = b)

/-- Models `basic_unique_any::operator==(const value_type& other)`: if
`!has_value()`, the result is `!TTraits::has_value(other)`; otherwise
`get() == other`. -/
def uaEqValue {V : Type} [DecidableEq V] (pred : V → Bool) (s : Option V)
    (u : V) : Bool :=
  match s with
  | none => !(hasValueV pred u)
  | some v => if pred v then decide (v = u) else !(hasValueV pred u)

/-- Reachability invariant of the wrapper: storage is either empty or holds
a predicate-valid value.  Every public operation of `basic_unique_any`
preserves it (see the `inv_*` lemmas below). -/
def UAInv {V : Type} (pred : V → Bool) (s : Option V) : Prop :=
  ∀ v, s = some v → pred v = true

theorem inv_fromValue {V : Type} (pred : V → Bool) (u : V) :
    UAInv pred (uaFromValue pred u).1 := by
  intro v hv
  unfold uaFromValue at hv
  by_cases h : hasValueV pred u
  · simp [h, constructS] at hv
    subst hv
    exact h
  · simp [h] at hv

theorem inv_inPlace {V : Type} (pred : V → Bool) (v : V) :
    UAInv pred (uaInPlace pred v).1 := by
  intro w hw
  unfold uaInPlace at hw
  by_cases h : pred v
  · simp [constructS, hasValueS, h] at hw
    subst hw
    exact h
  · simp [constructS, hasValueS, h, destroyS] at hw

theorem inv_resetWith {V : Type} (pred : V → Bool) (s : Option V) (u : V)
    (hs : UAInv pred s) : UAInv pred (uaResetWith pred s u).1 := by
  intro w hw
  unfold uaResetWith at hw
  by_cases hu : hasValueV pred u
  · simp [hu, constructS] at hw
    subst hw
    exact hu
  · by_cases h : hasValueS pred s
    · cases s with
      | none => simp [hasValueS] at h
      | some a => simp [h, hu, destroyS] at hw
    · simp [h, hu] at hw
      exact hs w hw

/-- The fd-style validity predicate used throughout the repository's test
suite: a value is valid iff it is nonnegative. -/
def predNN : Int → Bool := fun v => decide (0 ≤ v)

/-- C1 fails on the code: in-place construction of the predicate-invalid
value `-1` leaves the wrapper empty, but the trace contains a deleter
invocation for `-1` — `TTraits::destroy` of the optional-storage traits
invokes the domain deleter on the moved-out value. -/
theorem uaInPlace_invalid_deleter_cex :
    (uaInPlace predNN (-1)).1 = none ∧
    UAEvent.deleted (-1) ∈ (uaInPlace predNN (-1)).2 := by decide

/-- C1 (amended): for every in-place construction whose just-built value
fails the validity predicate, the wrapper ends empty, and the storage
traits' `destroy` runs — which, for the optional-storage traits, invokes the
domain deleter on the just-built value. -/
theorem uaInPlace_invalid_behavior {V : Type} (pred : V → Bool) (v : V)
    (h : pred v = false) :
    uaInPlace pred v = (none, [.installed v, .deleted v]) := by
  unfold uaInPlace
  simp [constructS, hasValueS, destroyS, h]

/-- Witness for `uaInPlace_invalid_behavior` at `pred = predNN`, `v = -2`. -/
theorem uaInPlace_invalid_behavior_w :
    uaInPlace predNN (-2) = (none, [.installed (-2), .deleted (-2)]) :=
  uaInPlace_invalid_behavior predNN (-2) (by decide)

/-- C2: on wrappers satisfying the reachability invariant, the defaulted
wrapper-to-wrapper `operator==` holds exactly when both wrappers hold the
same valid value or both are empty/invalid; moreover any two wrappers
constructed from predicate-invalid raw values compare equal to each other
and to an empty-constructed wrapper. -/
theorem uaEq_spec {V : Type} [DecidableEq V] (pred : V → Bool)
    (a b : Option V) (ha : UAInv pred a) (hb : UAInv pred b) :
    (uaEq a b = true ↔
      ((∃ v, a = some v ∧ b = some v) ∨
       (hasValueS pred a = false ∧ hasValueS pred b = false))) ∧
    (∀ u w : V, pred u = false → pred w = false →
      uaEq (uaFromValue pred u).1 (uaFromValue pred w).1 = true ∧
      uaEq (uaFromValue pred u).1 none = true) := by
  constructor
  · constructor
    · intro h
      have hab : a = b := of_decide_eq_true h
      subst hab
      cases a with
      | none => exact Or.inr ⟨rfl, rfl⟩
      | some v => exact Or.inl ⟨v, rfl, rfl⟩
    · rintro (⟨v, rfl, rfl⟩ | ⟨h1, h2⟩)
      · simp [uaEq]
      · have hA : a = none := by
          cases a with
          | none => rfl
          | some v => simp [hasValueS, ha v rfl] at h1
        have hB : b = none := by
          cases b with
          | none => rfl
          | some v => simp [hasValueS, hb v rfl] at h2
        subst hA
        subst hB
        simp [uaEq]
  · intro u w hu hw
    simp [uaFromValue, hasValueV, hu, hw, uaEq]

/-- Witness for `uaEq_spec`: two wrappers built from the invalid values `-1`
and `-2` under the nonnegativity predicate compare equal. -/
theorem uaEq_spec_w :
    uaEq (uaFromValue predNN (-1)).1 (uaFromValue predNN (-2)).1 = true := by
  have h := uaEq_spec predNN (none : Option Int) none
    (by intro v hv; cases hv) (by intro v hv; cases hv)
  exact ((h.2 (-1) (-2) (by decide) (by decide)).1)

/-- C4: `reset(newValue)` first emits the deleter invocation for the old
value (when one is held) and only afterwards installs the new value; when
`newValue` is predicate-invalid the wrapper ends non-holding and the only
deleter invocation in the trace is for the previously held value. -/
theorem uaResetWith_spec {V : Type} (pred : V → Bool) (s : Option V)
    (u : V) :
    (∀ a, s = some a → pred a = true →
      (uaResetWith pred s u).2
        = .deleted a :: (if pred u then [.installed u] else [])) ∧
    (hasValueS pred s = false →
      (uaResetWith pred s u).2 = (if pred u then [.installed u] else [])) ∧
    (pred u = false → hasValueS pred (uaResetWith pred s u).1 = false) ∧
    (∀ a, UAEvent.deleted a ∈ (uaResetWith pred s u).2 →
      s = some a ∧ pred a = true) := by
  refine ⟨?_, ?_, ?_, ?_⟩
  · intro a hs hp
    subst hs
    by_cases hu : pred u <;>
      simp [uaResetWith, hasValueS, hasValueV, destroyS, constructS, hp, hu]
  · intro h
    by_cases hu : pred u <;>
      simp [uaResetWith, hasValueV, destroyS, constructS, h, hu]
  · intro hu
    cases s with
    | none => simp [uaResetWith, hasValueS, hasValueV, hu]
    | some a =>
      by_cases hp : pred a <;>
        simp [uaResetWith, hasValueS, hasValueV, destroyS, hp, hu]
  · intro a hmem
    cases s with
    | none =>
      by_cases hu : pred u <;>
        simp [uaResetWith, hasValueS, hasValueV, constructS, hu] at hmem
    | some b =>
      by_cases hp : pred b
      · by_cases hu : pred u <;>
          simp [uaResetWith, hasValueS, hasValueV, destroyS, constructS,
            hp, hu] at hmem <;>
          exact ⟨by rw [hmem], by rw [hmem]; exact hp⟩
      · by_cases hu : pred u <;>
          simp [uaResetWith, hasValueS, hasValueV, destroyS, constructS,
            hp, hu] at hmem

/-- Witness for `uaResetWith_spec` at `s = some 5`, `u = -1`. -/
theorem uaResetWith_spec_w :
    (uaResetWith predNN (some 5) (-1)).2 = [UAEvent.deleted 5] ∧
    hasValueS predNN (uaResetWith predNN (some 5) (-1)).1 = false := by
  have h := uaResetWith_spec predNN (some (5 : Int)) (-1)
  constructor
  · have h1 := h.1 5 rfl (by decide)
    simpa using h1
  · exact h.2.2.1 (by decide)

/-- C5: `disown()` raises the invalid-access error exactly when the wrapper
is not holding (storage empty or the stored value predicate-invalid);
otherwise it returns the held value, leaves the wrapper empty, and the
trace is empty (no deleter invocation). -/
theorem uaDisown_spec {V : Type} (pred : V → Bool) (s : Option V) :
    (uaDisown pred s = .error .invalidAccess ↔ hasValueS pred s = false) ∧
    (∀ v, s = some v → pred v = true →
      uaDisown pred s = .ok (v, none, [])) := by
  constructor
  · cases s with
    | none => simp [uaDisown, hasValueS]
    | some v =>
      by_cases hp : pred v <;> simp [uaDisown, hasValueS, hp]
  · intro v hs hp
    subst hs
    simp [uaDisown, hp]

/-- Witness for `uaDisown_spec`: disowning a wrapper that stores the
predicate-invalid value `-3` fails, and disowning a wrapper holding `4`
returns `4`, empties the wrapper, and invokes no deleter. -/
theorem uaDisown_spec_w :
    uaDisown predNN (some (-3)) = .error .invalidAccess ∧
    uaDisown predNN (some 4) = .ok (4, none, []) := by
  constructor
  · exact (uaDisown_spec predNN (some (-3))).1.mpr (by decide)
  · exact (uaDisown_spec predNN (some 4)).2 4 rfl (by decide)

/-- C9: `operator==(const value_type&)` holds exactly when the wrapper holds
a valid value equal to the raw value, or the wrapper is not holding and the
raw value itself fails the traits' `has_value` check. -/
theorem uaEqValue_spec {V : Type} [DecidableEq V] (pred : V → Bool)
    (s : Option V) (u : V) :
    uaEqValue pred s u = true ↔
      ((∃ v, s = some v ∧ pred v = true ∧ v = u) ∨
       (hasValueS pred s = false ∧ pred u = false)) := by
  cases s with
  | none => simp [uaEqValue, hasValueS, hasValueV]
  | some v =>
    by_cases hp : pred v
    · simp [uaEqValue, hasValueS, hasValueV, hp]
    · simp [uaEqValue, hasValueS, hasValueV, hp]

/-- C6: move construction and move assignment between distinct wrappers
leave the source non-holding and transfer the held value to the
destination; when the destination held a value, its deleter fires first and
the adoption of the source's value follows. -/
theorem uaMove_spec {V : Type} (pred : V → Bool) (h : Nat → Option V)
    (dst src : Nat) (hne : dst ≠ src) :
    (hasValueS pred ((uaMoveAssign pred h dst src).1 src) = false) ∧
    (hasValueS pred ((uaMoveAssign pred h dst src).1 dst)
      = hasValueS pred (h src)) ∧
    (∀ b, h src = some b → pred b = true →
      (uaMoveAssign pred h dst src).1 dst = some b) ∧
    (∀ a b, h dst = some a → pred a = true → h src = some b →
      pred b = true →
      (uaMoveAssign pred h dst src).2 = [.deleted a, .installed b]) ∧
    (∀ a, h dst = some a → pred a = true → hasValueS pred (h src) = false →
      (uaMoveAssign pred h dst src).2 = [.deleted a]) ∧
    (hasValueS pred (uaMoveCtor pred (h src)).2 = false) ∧
    (hasValueS pred (uaMoveCtor pred (h src)).1 = hasValueS pred (h src)) ∧
    (∀ v, h src = some v → pred v = true →
      (uaMoveCtor pred (h src)).1 = some v) := by
  have hsd : ¬(src = dst) := fun e => hne e.symm
  have hr : ∀ s : Option V, hasValueS pred (uaReset pred s).1 = false := by
    intro s
    cases s with
    | none => simp [uaReset, hasValueS]
    | some a =>
      by_cases hp : pred a <;> simp [uaReset, hasValueS, destroyS, hp]
  refine ⟨?_, ?_, ?_, ?_, ?_, ?_, ?_, ?_⟩
  · rcases hs : h src with _ | b
    · simp [uaMoveAssign, hne, hupd, hsd, hs, hasValueS]
    · by_cases hp : pred b <;>
        simp [uaMoveAssign, hne, hupd, hsd, hs, hasValueS, hp]
  · rcases hs : h src with _ | b
    · simpa [uaMoveAssign, hne, hupd, hsd, hs, hasValueS] using hr (h dst)
    · by_cases hp : pred b
      · simp [uaMoveAssign, hne, hupd, hsd, hs, hasValueS, hp, constructS]
      · simpa [uaMoveAssign, hne, hupd, hsd, hs, hasValueS, hp]
          using hr (h dst)
  · intro b hs hp
    simp [uaMoveAssign, hne, hupd, hsd, hs, hp, constructS]
  · intro a b hd hp hs hq
    simp [uaMoveAssign, hne, hupd, hsd, hs, hd, hp, hq, uaReset,
      hasValueS, destroyS, constructS]
  · intro a hd hp hs
    rcases hsrc : h src with _ | b
    · simp [uaMoveAssign, hne, hupd, hsd, hsrc, hd, hp, uaReset,
        hasValueS, destroyS]
    · have hq : pred b = false := by
        simpa [hsrc, hasValueS] using hs
      simp [uaMoveAssign, hne, hupd, hsd, hsrc, hd, hp, hq, uaReset,
        hasValueS, destroyS]
  · rcases hs : h src with _ | b
    · simp [uaMoveCtor, hasValueS, hs]
    · by_cases hp : pred b <;> simp [uaMoveCtor, hasValueS, hs, hp]
  · rcases hs : h src with _ | b
    · simp [uaMoveCtor, hasValueS, hs]
    · by_cases hp : pred b <;> simp [uaMoveCtor, hasValueS, hs, hp]
  · intro v hs hp
    simp [uaMoveCtor, hasValueS, hs, hp]

/-- Witness for `uaMove_spec`: with object 0 holding `7` and object 1
holding `9`, move-assigning object 1 into object 0 deletes `7`, installs
`9`, and leaves object 1 non-holding. -/
theorem uaMove_spec_w :
    ((uaMoveAssign predNN (fun j => if j = 0 then some 7 else some 9)
        0 1).2 = [.deleted 7, .installed 9]) ∧
    hasValueS predNN
      ((uaMoveAssign predNN (fun j => if j = 0 then some 7 else some 9)
        0 1).1 1) = false := by
  have h := uaMove_spec predNN
    (fun j => if j = 0 then some (7 : Int) else some 9) 0 1 (by decide)
  exact ⟨h.2.2.2.1 7 9 (by simp) (by decide) (by simp) (by decide), h.1⟩

/-- C7: move-assigning a wrapper to itself (`this == std::addressof(other)`)
leaves every object unchanged and produces no events, for every wrapper
state. -/
theorem uaMoveAssign_self {V : Type} (pred : V → Bool)
    (h : Nat → Option V) (a : Nat) :
    uaMoveAssign pred h a a = (h, []) := by
  unfold uaMoveAssign
  simp

/-!
Model of `felly::basic_unique_ptr` (pointer value type) and the
`std::inout_ptr_t<felly::basic_unique_ptr<TTraits>, ...>` specialization
from `src/include/felly/unique_ptr.hpp`.  A pointer value is modelled as
`Option A` with `none` playing the role of `nullptr`; the storage of
`unique_any_pointer_traits` is the pointer itself.  `pp` is
`TTraits::has_value` (the configured predicate, or non-nullness when no
predicate is configured).
-/

/-- Models `unique_any_pointer_traits::destroy`:
`invoke_as_deleter<TDeleter>(std::exchange(storage, nullptr))`. -/
def pDestroy {A : Type} (s : Option A) :
    Option A × List (UAEvent (Option A)) :=
  (none, [.deleted s])

/-- Models `basic_unique_any::reset(U&& u)` instantiated at the pointer traits:
if `has_value()`, destroy the old storage; then, if
`TTraits::has_value(u)`, `storage = u`. -/
def pResetWith {A : Type} (pp : Option A → Bool) (s u : Option A) :
    Option A × List (UAEvent (Option A)) :=
  let r := if pp s then pDestroy s else (s, [])
  if pp u then (u, r.2 ++ [.installed u]) else r

/-- Models `std::inout_ptr_t<felly::basic_unique_ptr<TTraits>>::inout_ptr_t`:
`Pointer ptr {}` (i.e. `nullptr`); then `if (smart) { ptr = smart.disown(); }`.
Returns (wrapper storage afterwards, slot contents, events). -/
def inoutCtor {A : Type} (pp : Option A → Bool) (w : Option A) :
    Option A × Option A × List (UAEvent (Option A)) :=
  if pp w then (none, w, []) else (w, none, [])

/-- Models `std::inout_ptr_t<felly::basic_unique_ptr<TTraits>>::~inout_ptr_t`:
`smart.reset(ptr)`, applied whatever the wrapper and slot contain. -/
def inoutDtor {A : Type} (pp : Option A → Bool) (w slot : Option A) :
    Option A × List (UAEvent (Option A)) :=
  pResetWith pp w slot

/-- C8: on adapter entry a holding wrapper is disowned into the raw slot
with no deleter invocation (and a non-holding wrapper leaves the slot
null); on adapter destruction the slot's final contents are installed into
the wrapper via `reset(slot)` semantics — for every wrapper state and slot
value, the wrapper's prior value is deleted when it was holding and the
slot contents are installed when they pass the traits' `has_value`. -/
theorem inoutPtr_spec {A : Type} (pp : Option A → Bool) (w slot : Option A) :
    (pp w = true → inoutCtor pp w = (none, w, [])) ∧
    (pp w = false → inoutCtor pp w = (w, none, [])) ∧
    ((inoutDtor pp w slot).1
      = if pp slot then slot else if pp w then none else w) ∧
    ((inoutDtor pp w slot).2
      = (if pp w then [.deleted w] else [])
        ++ (if pp slot then [.installed slot] else [])) := by
  refine ⟨?_, ?_, ?_, ?_⟩
  · intro hw
    simp [inoutCtor, hw]
  · intro hw
    simp [inoutCtor, hw]
  · by_cases hs : pp slot <;> by_cases hw : pp w <;>
      simp [inoutDtor, pResetWith, pDestroy, hs, hw]
  · by_cases hs : pp slot <;> by_cases hw : pp w <;>
      simp [inoutDtor, pResetWith, pDestroy, hs, hw]

/-- Witness for `inoutPtr_spec`: wrapper holding pointer `7`, external code
leaves pointer `9` in the slot; entry disowns `7` into the slot without
deleting it, and scope exit deletes `7` and installs `9`. -/
theorem inoutPtr_spec_w :
    inoutCtor Option.isSome (some (7 : Int)) = (none, some 7, []) ∧
    inoutDtor Option.isSome (some (7 : Int)) (some 9)
      = (some 9, [.deleted (some 7), .installed (some 9)]) := by
  have h := inoutPtr_spec Option.isSome (some (7 : Int)) (some 9)
  refine ⟨h.1 (by decide), ?_⟩
  have h3 := h.2.2.1
  have h4 := h.2.2.2
  simp at h3 h4
  exact Prod.ext h3 h4

/-!
Model of `felly::numeric_cast` (`src/include/felly/numeric_cast.hpp`).

* `numeric_cast<integral T>(integral v)` is embedded over `Int`, with the
  target type's representable range `[lo, hi]` passed explicitly
  (`std::in_range<T>` is exactly that membership test, and `static_cast`
  of an in-range integer is the identity).
* `numeric_cast<integral T, floating_point U>` is embedded over exact
  rationals: a finite floating-point source value is a rational, `NaN` is a
  separate constructor, `Lowest = static_cast<U>(lowest())` and
  `TooHigh = 2^digits` are exactly representable powers of two passed as
  rationals, and `static_cast<T>(u)` on an in-range value truncates toward
  zero.
-/

/-- Models `felly::numeric_cast_range_error`: either the formatted
value-and-bounds message (for an integral or floating-point attempted
value), or the fixed NaN-to-integral message, which carries no value or
bounds. -/
inductive NCError where
  | intOutOfRange (value lo hi : Int)
  | fpOutOfRange (value lo hi : Rat)
  | nanToIntegral
  deriving DecidableEq, Repr

/-- Models `numeric_cast<integral T>(integral v)`: throw unless
`std::in_range<T>(v)`, else return the value unchanged. -/
def numericCastII (lo hi v : Int) : Except NCError Int :=
  if lo ≤ v ∧ v ≤ hi then .ok v else .error (.intOutOfRange v lo hi)

/-- Models `static_cast<T>(u)` for an in-range floating-point `u` and integral
`T`: truncation toward zero. -/
def truncToZero (q : Rat) : Int :=
  if q < 0 then ⌈q⌉ else ⌊q⌋

/-- A floating-point source value for the integral-target overload: `NaN`
or a finite value (an exact rational). -/
inductive FpVal where
  | nan
  | fin (q : Rat)
  deriving DecidableEq, Repr

/-- Models `numeric_cast<integral T, floating_point U>(u)`: throw on NaN; throw
when `u < Lowest || u >= TooHigh`; otherwise `static_cast<T>(u)`. -/
def numericCastFI (lo tooHigh : Rat) : FpVal → Except NCError Int
  | .nan => .error .nanToIntegral
  | .fin q =>
    if q < lo ∨ tooHigh ≤ q then .error (.fpOutOfRange q lo tooHigh)
    else .ok (truncToZero q)

/-- C3 fails on the code: converting the finite, exactly-representable
double `1.5` to `int32` does not raise a range error — it silently
truncates to `1`, although `1.5` is not exactly representable in the target
type.  (`-2147483648` and `2^31` are the `int32` instantiations of
`Lowest` and `TooHigh`.) -/
theorem numericCastFI_truncates_cex :
    numericCastFI (-2147483648) 2147483648 (.fin (3 / 2)) = .ok 1 ∧
    ((1 : Rat) ≠ 3 / 2) := by
  constructor
  · show (if (3 / 2 : Rat) < -2147483648 ∨ (2147483648 : Rat) ≤ 3 / 2 then
        Except.error (NCError.fpOutOfRange (3 / 2) (-2147483648) 2147483648)
      else Except.ok (truncToZero (3 / 2))) = Except.ok 1
    rw [if_neg (by norm_num)]
    unfold truncToZero
    rw [if_neg (by norm_num)]
    have hf : ⌊(3 / 2 : Rat)⌋ = 1 := by norm_num
    rw [hf]
  · norm_num

/-- C3 (amended): `numeric_cast` raises a range error exactly when the
source is out of the target type's range — carrying the attempted value and
the bounds — or is NaN with an integral target (that error carries only a
message); in-range integral-to-integral conversions return the value
unchanged, while in-range floating-to-integral conversions truncate toward
zero, the result converting back to the source exactly when the source was
an integer. -/
theorem numericCast_spec (lo hi v : Int) (flo fhi q : Rat) :
    (numericCastII lo hi v = .ok v ↔ (lo ≤ v ∧ v ≤ hi)) ∧
    (¬(lo ≤ v ∧ v ≤ hi) →
      numericCastII lo hi v = .error (.intOutOfRange v lo hi)) ∧
    (numericCastFI flo fhi .nan = .error .nanToIntegral) ∧
    (flo ≤ q → q < fhi →
      numericCastFI flo fhi (.fin q) = .ok (truncToZero q)) ∧
    (q < flo ∨ fhi ≤ q →
      numericCastFI flo fhi (.fin q) = .error (.fpOutOfRange q flo fhi)) ∧
    (((truncToZero q : Rat) = q) ↔ ∃ z : Int, q = (z : Rat)) := by
  refine ⟨?_, ?_, ?_, ?_, ?_, ?_⟩
  · constructor
    · intro h
      by_contra hc
      simp [numericCastII, hc] at h
    · intro h
      simp [numericCastII, h]
  · intro h
    simp [numericCastII, h]
  · rfl
  · intro h1 h2
    simp [numericCastFI, not_lt.mpr h1, not_le.mpr h2]
  · intro h
    simp [numericCastFI, h]
  · constructor
    · intro h
      exact ⟨truncToZero q, h.symm⟩
    · rintro ⟨z, rfl⟩
      by_cases hz : (z : Rat) < 0 <;>
        simp [truncToZero, hz, Int.ceil_intCast, Int.floor_intCast]

/-- Witness for `numericCast_spec`: an out-of-range `int8` conversion fails
with the value and bounds, and the in-range `1.5`-to-`int32` conversion
returns the truncation. -/
theorem numericCast_spec_w :
    numericCastII (-128) 127 200 = .error (.intOutOfRange 200 (-128) 127) ∧
    numericCastFI (-2147483648) 2147483648 (.fin (3 / 2))
      = .ok (truncToZero (3 / 2)) := by
  have h := numericCast_spec (-128) 127 200 (-2147483648) 2147483648 (3 / 2)
  exact ⟨h.2.1 (by decide), h.2.2.2.1 (by norm_num) (by norm_num)⟩

/-!
Model of `felly::detail::basic_scope_exit`
(`src/include/felly/scope_exit.hpp`).  A guard is its policy, the
exception count captured at construction (`mInitialUncaught`), and the
`mOwned` flag.  The three policies are the template parameter
`basic_scope_exit_execution_policy`; the current
`std::uncaught_exceptions()` value is passed to the destructor explicitly.
A family of guards (one original plus everything move-constructed from it)
lives in a list; each C++ object is destroyed at most once, so a destroyed
flag accompanies each guard and operations on a destroyed object are
excluded.
-/

/-- Models `basic_scope_exit_execution_policy`. -/
inductive SEPolicy where
  | always
  | onFailure
  | onSuccess
  deriving DecidableEq, Repr

/-- The state of one `basic_scope_exit` object. -/
structure SEGuard where
  policy : SEPolicy
  initialUncaught : Nat
  owned : Bool
  deriving DecidableEq, Repr

/-- Whether `~basic_scope_exit()` invokes the callback: `if (!mOwned)
return;` then `Always` invokes, `OnFailure` invokes iff
`std::uncaught_exceptions() > mInitialUncaught`, `OnSuccess` iff the counts
are equal. -/
def seInvokes (g : SEGuard) (now : Nat) : Bool :=
  if !g.owned then false
  else
    match g.policy with
    | .always => true
    | .onFailure => decide (g.initialUncaught < now)
    | .onSuccess => decide (now = g.initialUncaught)

/-- Models `basic_scope_exit(basic_scope_exit&& other)`: the new guard copies
`mInitialUncaught` and takes `mOwned` via `std::exchange(other.mOwned,
false)`.  Returns (source afterwards, newly constructed guard). -/
def seMoveCtor (g : SEGuard) : SEGuard × SEGuard :=
  (⟨g.policy, g.initialUncaught, false⟩,
   ⟨g.policy, g.initialUncaught, g.owned⟩)

/-- Models `basic_scope_exit::release()`: `mOwned = false`. -/
def seRelease (g : SEGuard) : SEGuard :=
  ⟨g.policy, g.initialUncaught, false⟩

/-- An operation on a guard family: move-construct a new guard from guard
`i`, call `release()` on guard `i`, or run guard `i`'s destructor with the
current uncaught-exception count `now`. -/
inductive SEOp where
  | moveFrom (i : Nat)
  | release (i : Nat)
  | destroy (i : Nat) (now : Nat)
  deriving DecidableEq, Repr

/-- A guard family: the guards created so far (with a destroyed flag each)
and the number of callback invocations that have happened. -/
structure SEState where
  guards : List (SEGuard × Bool)
  invoked : Nat
  deriving DecidableEq, Repr

/-- One step of the guard family.  Operations on destroyed or nonexistent
objects do nothing (in C++ they are excluded by object lifetime). -/
def seStep (st : SEState) (op : SEOp) : SEState :=
  match op with
  | .moveFrom i =>
    match st.guards[i]? with
    | some gd =>
      if gd.2 then st
      else
        ⟨st.guards.set i ((seMoveCtor gd.1).1, false)
           ++ [((seMoveCtor gd.1).2, false)], st.invoked⟩
    | none => st
  | .release i =>
    match st.guards[i]? with
    | some gd =>
      if gd.2 then st
      else ⟨st.guards.set i (seRelease gd.1, false), st.invoked⟩
    | none => st
  | .destroy i now =>
    match st.guards[i]? with
    | some gd =>
      if gd.2 then st
      else
        ⟨st.guards.set i (gd.1, true),
         st.invoked + (if seInvokes gd.1 now then 1 else 0)⟩
    | none => st

/-- A family freshly started from one owning guard. -/
def seInit (p : SEPolicy) (n : Nat) : SEState :=
  ⟨[(⟨p, n, true⟩, false)], 0⟩

/-- Run a sequence of operations on a fresh guard family. -/
def seRun (p : SEPolicy) (n : Nat) (ops : List SEOp) : SEState :=
  ops.foldl seStep (seInit p n)

/-- Number of guards that still own the callback and are not destroyed. -/
def liveOwned (st : SEState) : Nat :=
  st.guards.countP (fun gd => gd.1.owned && !gd.2)

theorem seInvokes_owned (g : SEGuard) (now : Nat)
    (h : seInvokes g now = true) : g.owned = true := by
  by_contra hc
  have ho : g.owned = false := by
    cases hg : g.owned
    · rfl
    · exact absurd hg hc
  simp [seInvokes, ho] at h

theorem countP_set {α : Type} (p : α → Bool) :
    ∀ (l : List α) (i : Nat) (x y : α), l[i]? = some y →
      (l.set i x).countP p + (if p y then 1 else 0)
        = l.countP p + (if p x then 1 else 0) := by
  intro l
  induction l with
  | nil =>
    intro i x y h
    simp at h
  | cons a t ih =>
    intro i x y h
    cases i with
    | zero =>
      simp at h
      subst h
      simp [List.countP_cons]
      omega
    | succ j =>
      simp at h
      have := ih j x y h
      simp [List.countP_cons]
      omega

theorem seStep_inv (st : SEState) (op : SEOp)
    (h : st.invoked + liveOwned st ≤ 1) :
    (seStep st op).invoked + liveOwned (seStep st op) ≤ 1 := by
  cases op with
  | moveFrom i =>
    rcases hg : st.guards[i]? with _ | gd
    · simpa [seStep, hg] using h
    · by_cases hd : gd.2
      · simpa [seStep, hg, hd] using h
      · obtain ⟨g1, g2⟩ := gd
        simp at hd
        subst hd
        have hc := countP_set (fun gd => gd.1.owned && !gd.2) st.guards i
          ((seMoveCtor g1).1, false) (g1, false) hg
        simp [seStep, hg, liveOwned, List.countP_append,
          List.countP_cons, seMoveCtor] at *
        by_cases ho : g1.owned <;> simp [ho] at hc ⊢ <;> omega
  | release i =>
    rcases hg : st.guards[i]? with _ | gd
    · simpa [seStep, hg] using h
    · by_cases hd : gd.2
      · simpa [seStep, hg, hd] using h
      · obtain ⟨g1, g2⟩ := gd
        simp at hd
        subst hd
        have hc := countP_set (fun gd => gd.1.owned && !gd.2) st.guards i
          (seRelease g1, false) (g1, false) hg
        simp [seStep, hg, liveOwned, seRelease] at *
        by_cases ho : g1.owned <;> simp [ho] at hc ⊢ <;> omega
  | destroy i now =>
    rcases hg : st.guards[i]? with _ | gd
    · simpa [seStep, hg] using h
    · by_cases hd : gd.2
      · simpa [seStep, hg, hd] using h
      · obtain ⟨g1, g2⟩ := gd
        simp at hd
        subst hd
        have hc := countP_set (fun gd => gd.1.owned && !gd.2) st.guards i
          (g1, true) (g1, false) hg
        simp [seStep, hg, liveOwned] at *
        by_cases hinv : seInvokes g1 now
        · have ho := seInvokes_owned g1 now hinv
          simp [ho, hinv] at hc ⊢
          omega
        · by_cases ho : g1.owned <;> simp [ho, hinv] at hc ⊢ <;> omega

theorem seRun_inv (p : SEPolicy) (n : Nat) (ops : List SEOp) :
    (seRun p n ops).invoked + liveOwned (seRun p n ops) ≤ 1 := by
  suffices hgen : ∀ (l : List SEOp) (st : SEState),
      st.invoked + liveOwned st ≤ 1 →
      (l.foldl seStep st).invoked + liveOwned (l.foldl seStep st) ≤ 1 by
    apply hgen
    simp [seInit, liveOwned, List.countP_cons]
  intro l
  induction l with
  | nil => intro st h; simpa using h
  | cons op t ih =>
    intro st h
    exact ih (seStep st op) (seStep_inv st op h)

/-- C10: starting from a fresh guard, any sequence of move-constructions,
`release()` calls, and destructor runs invokes the callback at most once
across the whole family; a guard whose ownership flag is cleared (in
particular any moved-from guard) never invokes its callback on
destruction, whatever the policy and exception count; `release()` clears
the flag; and move-construction transfers the flag while copying the
policy data. -/
theorem scopeExit_spec (p : SEPolicy) (n : Nat) (ops : List SEOp)
    (g : SEGuard) (now : Nat) :
    ((seRun p n ops).invoked ≤ 1) ∧
    (g.owned = false → seInvokes g now = false) ∧
    (seInvokes (seRelease g) now = false) ∧
    ((seMoveCtor g).1.owned = false) ∧
    ((seMoveCtor g).2.owned = g.owned) ∧
    ((seMoveCtor g).2.policy = g.policy) ∧
    ((seMoveCtor g).2.initialUncaught = g.initialUncaught) := by
  refine ⟨?_, ?_, ?_, rfl, rfl, rfl, rfl⟩
  · have h := seRun_inv p n ops
    omega
  · intro ho
    simp [seInvokes, ho]
  · simp [seInvokes, seRelease]

/-- Witness for `scopeExit_spec`: a move chain followed by both
destructors invokes the callback at most once, and a moved-from
(non-owning) guard's destructor invokes nothing. -/
theorem scopeExit_spec_w :
    (seRun .always 0
      [.moveFrom 0, .destroy 0 0, .destroy 1 0]).invoked ≤ 1 ∧
    seInvokes ⟨.onFailure, 0, false⟩ 5 = false := by
  have h := scopeExit_spec .always 0
    [.moveFrom 0, .destroy 0 0, .destroy 1 0] ⟨.onFailure, 0, false⟩ 5
  exact ⟨h.1, h.2.1 rfl⟩

end Felly
